import Mathlib

/-!
# Verification of the AutoCaptions caption-state core

Shallow embedding of the caption-state synthesis and level-assignment core of
the AutoCaptions repository, and proofs of the behavioural claims about it.

The repository contains two variants of the caption generator:

* `src/progressive_captions.py` — the sliding-window strategy
  (`Sliding` namespace below);
* `src/AutoCaptions/progressive_captions.py` — the fixed-cycle (1–3 word)
  strategy (`Fixed` namespace below).

Python strings are modelled as `List Char`; times in seconds as `ℚ`
(the Python code computes with binary floating point; all claims under
study are order/arithmetic facts that we settle over exact rationals).
Python `sorted` with a key tuple is modelled by a stable insertion sort on
the same key.  Functions that Python could only exit via `raise` are given
an `Except` result type.
-/

/- Rational arithmetic must evaluate inside `decide`; Batteries marks these
operations irreducible, which only affects elaboration, not soundness. -/
attribute [local semireducible] Rat.add Rat.sub Rat.mul Rat.inv Rat.ofScientific

/-! ## Text model: whitespace tokenisation and joining -/

/-- Python `\s` whitespace characters (space, tab, newline, carriage return,
vertical tab, form feed). -/
def isSpaceChar (c : Char) : Bool :=
  c = ' ' || c = '\t' || c = '\n' || c = '\r' || c = Char.ofNat 11 || c = Char.ofNat 12

/-- Worker for `tokenize`: split on runs of whitespace, dropping empty pieces.
`cur` is the current word accumulated in reverse. -/
def wordsAux : List Char → List Char → List (List Char)
  | [], cur => if cur.isEmpty then [] else [cur.reverse]
  | c :: cs, cur =>
    if isSpaceChar c then
      if cur.isEmpty then wordsAux cs [] else cur.reverse :: wordsAux cs []
    else
      wordsAux cs (c :: cur)

/-- `CaptionGenerator.tokenize` (identical in both source files):
`re.split(r'\s+', text)`, stripping and dropping empty strings — i.e.
split on whitespace runs. -/
def tokenize (text : List Char) : List (List Char) :=
  wordsAux text []

/-- Python `sep.join(words)` for a one-character separator. -/
def joinSep (sep : Char) : List (List Char) → List Char
  | [] => []
  | [w] => w
  | w :: x :: ws => w ++ sep :: joinSep sep (x :: ws)

/-! ## Data model -/

/-- `SubtitleSegment` dataclass (both files).  The Python field `end` is a
Lean keyword and is rendered `endTime`. -/
structure SubtitleSegment where
  start : ℚ
  endTime : ℚ
  text : List Char
  index : ℕ
deriving DecidableEq, Repr, Inhabited

/-- `CaptionState` dataclass (both files). -/
structure CaptionState where
  text : List Char
  «on» : ℚ
  off : ℚ
  seg_idx : ℕ
  y : ℤ
  skip : Bool
deriving DecidableEq, Repr

instance : Inhabited CaptionState := ⟨⟨[], 0, 0, 0, 0, false⟩⟩

/-- Python `max(lo, min(hi, x))`, the clamping pattern used by both
`compute_word_times` implementations and the fixed-cycle state builder. -/
def clampQ (lo hi x : ℚ) : ℚ :=
  max lo (min hi x)

/-- The `for i in range(word_count)` loop shared by both
`compute_word_times` implementations: interval `i` spans
`[seg_start + i*slot, seg_start + (i+1)*slot]`, clamped to the segment. -/
def uniformTimes (seg_start seg_end slot : ℚ) (word_count : ℕ) : List (ℚ × ℚ) :=
  (List.range word_count).map (fun (i : ℕ) =>
    (clampQ seg_start seg_end (seg_start + (i : ℚ) * slot),
     clampQ seg_start seg_end (seg_start + ((i : ℚ) + 1) * slot)))

/-- The sort key order of `sorted(states, key=lambda s: (s.on, s.seg_idx))`. -/
def stateKeyLE (a b : CaptionState) : Prop :=
  a.on < b.on ∨ (a.on = b.on ∧ a.seg_idx ≤ b.seg_idx)

instance : DecidableRel stateKeyLE := fun a b => by
  unfold stateKeyLE; infer_instance

/-- Python `sorted(states, key=lambda s: (s.on, s.seg_idx))`: a stable sort by
the `(on, seg_idx)` key (insertion sort is stable for this insertion order). -/
def sortStates (states : List CaptionState) : List CaptionState :=
  List.insertionSort stateKeyLE states

/-! ## Fixed-cycle strategy (`src/AutoCaptions/progressive_captions.py`) -/

namespace Fixed

/-- Configuration held on `CaptionGenerator` after `__init__`
(fixed-cycle variant). -/
structure CaptionGenerator where
  min_visibility_sec : ℚ
  min_words : ℕ
  max_words : ℕ
deriving DecidableEq, Repr

/-- `CaptionGenerator.__init__(min_visibility_ms, min_words_per_caption,
max_words_per_caption)`.  The result is wrapped in `Except` to express
whether construction can fail; the source performs no validation and
always succeeds. -/
def CaptionGenerator.init (min_visibility_ms : ℤ)
    (min_words_per_caption max_words_per_caption : ℕ) :
    Except (List Char) CaptionGenerator :=
  Except.ok
    { min_visibility_sec := (min_visibility_ms : ℚ) / 1000
      min_words := min_words_per_caption
      max_words := max_words_per_caption }

/-- `CaptionGenerator.compute_word_times` (fixed-cycle variant): uniform
subdivision with a per-word floor of `min_visibility_sec / max_words`. -/
def CaptionGenerator.compute_word_times (cfg : CaptionGenerator)
    (seg_start seg_end : ℚ) (word_count : ℕ) : List (ℚ × ℚ) :=
  let total_dur := seg_end - seg_start
  let min_total_dur := (word_count : ℚ) * (cfg.min_visibility_sec / (cfg.max_words : ℚ))
  let actual_dur := max total_dur min_total_dur
  let slot := actual_dur / (word_count : ℚ)
  uniformTimes seg_start seg_end slot word_count

/-- `CaptionGenerator.determine_word_count`. -/
def CaptionGenerator.determine_word_count (cfg : CaptionGenerator)
    (word_index total_words : ℕ) (avg_time_per_word : ℚ) : ℕ :=
  let remaining_words := total_words - word_index
  if avg_time_per_word < cfg.min_visibility_sec / 2 then
    min 1 remaining_words
  else if avg_time_per_word < cfg.min_visibility_sec then
    min 2 remaining_words
  else
    let cycle_pos := word_index % 3
    let word_count := min (cfg.min_words + cycle_pos) (min cfg.max_words remaining_words)
    if word_count < cfg.min_words ∧ cfg.min_words ≤ remaining_words then
      cfg.min_words
    else
      word_count

/-- Construction of one caption state of the fixed-cycle
`CaptionGenerator.generate_states` loop, for the group of `word_count`
words starting at word index `i`: `on`/`off` from the word times, the
minimum-visibility bump, then clamping to the (clip-adjusted) segment. -/
def groupState (cfg : CaptionGenerator) (ws : List (List Char)) (wt : List (ℚ × ℚ))
    (adj_start adj_end total_duration : ℚ) (idx i word_count : ℕ) : CaptionState :=
  let caption_words := (ws.drop i).take word_count
  let caption_text := joinSep ' ' caption_words
  let on0 := if i < wt.length then (wt.getD i (0, 0)).1
             else adj_start + ((i : ℚ) / (ws.length : ℚ)) * total_duration
  let last_word_idx := min (i + word_count - 1) (wt.length - 1)
  let off0 := if last_word_idx < wt.length then (wt.getD last_word_idx (0, 0)).2
              else adj_end
  let off1 := if off0 - on0 < cfg.min_visibility_sec then on0 + cfg.min_visibility_sec
              else off0
  { text := caption_text
    «on» := clampQ adj_start adj_end on0
    off := clampQ adj_start adj_end off1
    seg_idx := idx
    y := 260
    skip := false }

/-- The word-group loop of `CaptionGenerator.generate_states` (the
`while i < len(words)` body).  `fuel` bounds the number of iterations; the
caller passes `fuel = words.length`, which suffices because each emitted
group consumes at least one word.  A zero group size (possible only when
`min_words = 0` or `max_words = 0`, where the Python loop would not
terminate) stops the walk.  The final guard `if off > on` is the source's
`if off > on: states.append(...)`. -/
def genGroups (cfg : CaptionGenerator) (ws : List (List Char)) (wt : List (ℚ × ℚ))
    (adj_start adj_end total_duration avg : ℚ) (idx : ℕ) :
    ℕ → ℕ → List CaptionState
  | 0, _ => []
  | fuel + 1, i =>
    if i < ws.length then
      let word_count := min (cfg.determine_word_count i ws.length avg) (ws.length - i)
      if word_count = 0 then []
      else
        let st := groupState cfg ws wt adj_start adj_end total_duration idx i word_count
        let rest := genGroups cfg ws wt adj_start adj_end total_duration avg idx fuel
          (i + word_count)
        if st.on < st.off then st :: rest else rest
    else []

/-- The per-segment body of `CaptionGenerator.generate_states`
(fixed-cycle variant): clip-relative adjustment, tokenisation, synthetic
word timing, then the 1–3 word group walk. -/
def segmentStates (cfg : CaptionGenerator) (seg : SubtitleSegment)
    (clip_start clip_end : ℚ) : List CaptionState :=
  let adj_start := max 0 (seg.start - clip_start)
  let adj_end := min (clip_end - clip_start) (seg.endTime - clip_start)
  if adj_end ≤ adj_start then []
  else
    let words := tokenize seg.text
    if words.isEmpty then []
    else
      let word_times := cfg.compute_word_times adj_start adj_end words.length
      let total_duration := adj_end - adj_start
      let avg := if 0 < words.length then total_duration / (words.length : ℚ)
                 else cfg.min_visibility_sec
      genGroups cfg words word_times adj_start adj_end total_duration avg seg.index
        words.length 0

/-- `CaptionGenerator.generate_states` (fixed-cycle variant). -/
def CaptionGenerator.generate_states (cfg : CaptionGenerator)
    (segments : List SubtitleSegment) (clip_start clip_end : ℚ) : List CaptionState :=
  sortStates (segments.flatMap (fun seg => segmentStates cfg seg clip_start clip_end))

/-- The overlap test of the fixed-cycle `assign_caption_levels`:
`not (state.off <= level_state.on or state.on >= level_state.off)`. -/
def overlapB (s t : CaptionState) : Bool :=
  !(decide (s.off ≤ t.on) || decide (s.on ≥ t.off))

/-- The loop of the fixed-cycle `assign_caption_levels`: `levels` is the list
of previously accepted (non-overlapping) states. -/
def assignGo (levels : List CaptionState) : List CaptionState → List CaptionState
  | [] => []
  | s :: rest =>
    if levels.any (fun t => overlapB s t) then
      { s with skip := true } :: assignGo levels rest
    else
      { s with y := 260 } :: assignGo (levels ++ [{ s with y := 260 }]) rest

/-- `CaptionGenerator.assign_caption_levels` (fixed-cycle variant): single
display level, overlap checked against every previously accepted state. -/
def assign_caption_levels (states : List CaptionState) : List CaptionState :=
  assignGo [] states

end Fixed

/-! ## Sliding-window strategy (`src/progressive_captions.py`) -/

namespace Sliding

/-- Configuration held on `CaptionGenerator` after `__init__`
(sliding-window variant). -/
structure CaptionGenerator where
  lead_in_sec : ℚ
  min_visibility_sec : ℚ
  overlap_sec : ℚ
  max_words : ℕ
deriving DecidableEq, Repr

/-- `CaptionGenerator.__init__(lead_in_ms, min_visibility_ms, overlap_ms,
max_words)`; `Except`-wrapped as in the fixed-cycle variant — the source
performs no validation and always succeeds. -/
def CaptionGenerator.init (lead_in_ms min_visibility_ms overlap_ms : ℤ)
    (max_words : ℕ) : Except (List Char) CaptionGenerator :=
  Except.ok
    { lead_in_sec := (lead_in_ms : ℚ) / 1000
      min_visibility_sec := (min_visibility_ms : ℚ) / 1000
      overlap_sec := (overlap_ms : ℚ) / 1000
      max_words := max_words }

/-- `CaptionGenerator.compute_word_times` (sliding-window variant): uniform
subdivision with the full `min_visibility_sec` floor per word. -/
def CaptionGenerator.compute_word_times (cfg : CaptionGenerator)
    (seg_start seg_end : ℚ) (word_count : ℕ) : List (ℚ × ℚ) :=
  let total_dur := seg_end - seg_start
  let min_total_dur := (word_count : ℚ) * cfg.min_visibility_sec
  let actual_dur := max total_dur min_total_dur
  let slot := actual_dur / (word_count : ℚ)
  uniformTimes seg_start seg_end slot word_count

/-- The per-segment body of `CaptionGenerator.generate_states`
(sliding-window variant): one state per word, trailing window of up to
`max_words` words.  `i + 1 - cfg.max_words` equals Python's
`max(0, i - (max_words - 1))` for every natural `max_words`. -/
def segmentStates (cfg : CaptionGenerator) (seg : SubtitleSegment)
    (clip_start clip_end : ℚ) : List CaptionState :=
  let adj_start := max 0 (seg.start - clip_start)
  let adj_end := min (clip_end - clip_start) (seg.endTime - clip_start)
  if adj_end ≤ adj_start then []
  else
    let words := tokenize seg.text
    if words.isEmpty then []
    else
      let word_times := cfg.compute_word_times adj_start adj_end words.length
      (List.range words.length).map (fun i =>
        let window_start := i + 1 - cfg.max_words
        let window_text := joinSep ' ' ((words.drop window_start).take (i + 1 - window_start))
        let on0 := max 0 ((word_times.getD i (0, 0)).1 - cfg.lead_in_sec)
        let off0 := if i < words.length - 1 then
                      (word_times.getD (i + 1) (0, 0)).1 - cfg.overlap_sec
                    else adj_end
        let off1 := min (clip_end - clip_start) off0
        let off2 := max off1 (on0 + cfg.min_visibility_sec)
        { text := window_text, «on» := on0, off := off2, seg_idx := seg.index, y := 260,
          skip := false })

/-- `CaptionGenerator.generate_states` (sliding-window variant). -/
def CaptionGenerator.generate_states (cfg : CaptionGenerator)
    (segments : List SubtitleSegment) (clip_start clip_end : ℚ) : List CaptionState :=
  sortStates (segments.flatMap (fun seg => segmentStates cfg seg clip_start clip_end))

/-- The per-level acceptance test of the sliding-window
`assign_caption_levels`: `not levels[lvl] or levels[lvl][-1].off <= state.on` —
only the `off` of the last accepted state is consulted. -/
def levelAcceptsLast (lvl : List CaptionState) (s : CaptionState) : Bool :=
  match lvl.getLast? with
  | none => true
  | some t => decide (t.off ≤ s.on)

/-- The loop of the sliding-window `assign_caption_levels`, with the two
levels of `levels = [[] for _ in range(2)]` unrolled: first-fit on level 0
(`y = 260`), then level 1 (`y = 320`), else skip. -/
def assignGo (L0 L1 : List CaptionState) : List CaptionState → List CaptionState
  | [] => []
  | s :: rest =>
    if levelAcceptsLast L0 s then
      { s with y := 260 } :: assignGo (L0 ++ [{ s with y := 260 }]) L1 rest
    else if levelAcceptsLast L1 s then
      { s with y := 320 } :: assignGo L0 (L1 ++ [{ s with y := 320 }]) rest
    else
      { s with skip := true } :: assignGo L0 L1 rest

/-- `CaptionGenerator.assign_caption_levels` (sliding-window variant). -/
def assign_caption_levels (states : List CaptionState) : List CaptionState :=
  assignGo [] [] states

/-- Modelled from the spec: the alternative level assigner of claim C4, which
"checks the new state for overlap against every previously accepted state on
that level" instead of only the last accepted `off`. -/
def levelAcceptsAll (lvl : List CaptionState) (s : CaptionState) : Bool :=
  lvl.all (fun t => decide (s.off ≤ t.on) || decide (s.on ≥ t.off))

/-- Modelled from the spec: the sliding-window assigner loop with the
full-history acceptance test `levelAcceptsAll` in place of
`levelAcceptsLast`. -/
def assignAllGo (L0 L1 : List CaptionState) : List CaptionState → List CaptionState
  | [] => []
  | s :: rest =>
    if levelAcceptsAll L0 s then
      { s with y := 260 } :: assignAllGo (L0 ++ [{ s with y := 260 }]) L1 rest
    else if levelAcceptsAll L1 s then
      { s with y := 320 } :: assignAllGo L0 (L1 ++ [{ s with y := 320 }]) rest
    else
      { s with skip := true } :: assignAllGo L0 L1 rest

/-- Modelled from the spec: top-level full-history assigner (claim C4). -/
def assign_caption_levels_full_history (states : List CaptionState) : List CaptionState :=
  assignAllGo [] [] states

end Sliding

/-! ## Text wrapper (`CaptionGenerator.wrap_text`, identical in both files) -/

/-- One step of the greedy line-fill loop of `wrap_text`: break the line when
`len(' '.join(current + [word])) > max_chars`, appending the current line
only when non-empty. -/
def wrapStep (max_chars : ℕ) (acc : List (List (List Char)) × List (List Char))
    (w : List Char) : List (List (List Char)) × List (List Char) :=
  let lines := acc.1
  let current := acc.2
  if max_chars < (joinSep ' ' (current ++ [w])).length then
    (if current.isEmpty then lines else lines ++ [current], [w])
  else
    (lines, current ++ [w])

/-- The greedy line groups produced by `wrap_text` before joining. -/
def wrapLines (ws : List (List Char)) (max_chars : ℕ) : List (List (List Char)) :=
  let acc := ws.foldl (wrapStep max_chars) ([], [])
  if acc.2.isEmpty then acc.1 else acc.1 ++ [acc.2]

/-- `CaptionGenerator.wrap_text`: split into words, greedy line-fill to
`max_chars`, join lines with newlines. -/
def wrap_text (text : List Char) (max_chars : ℕ) : List Char :=
  joinSep (Char.ofNat 10) ((wrapLines (tokenize text) max_chars).map (joinSep ' '))

/-! ## Concrete inputs used by counterexamples and witnesses -/

/-- Fixed-cycle generator with the source's default configuration
(`min_visibility_ms = 200`, `min_words = 1`, `max_words = 3`). -/
def fixedDefaultCfg : Fixed.CaptionGenerator :=
  ⟨200 / 1000, 1, 3⟩

/-- Sliding-window generator with the source's default configuration
(`lead_in_ms = 180`, `min_visibility_ms = 120`, `overlap_ms = 50`,
`max_words = 5`). -/
def slidingDefaultCfg : Sliding.CaptionGenerator :=
  ⟨180 / 1000, 120 / 1000, 50 / 1000, 5⟩

/-- A very short one-word segment (50 ms): its clamped duration is below the
default 200 ms visibility floor. -/
def shortSeg : SubtitleSegment :=
  ⟨0, 1 / 20, "hi".toList, 0⟩

/-- A comfortable one-word segment of one second. -/
def oneWordSeg : SubtitleSegment :=
  ⟨0, 1, "hi".toList, 0⟩

/-- The spec's scenario configuration for claim C2: fixed-cycle mode with
`min_visibility = 0.120 s`, `min_words = 1`, `max_words = 3`. -/
def c2cfg : Fixed.CaptionGenerator :=
  ⟨120 / 1000, 1, 3⟩

/-- The spec's scenario segment for claim C2. -/
def c2seg : SubtitleSegment :=
  ⟨0, 2535 / 1000, "This room is like a red carpet Hollywood hallway".toList, 0⟩

/-- Fixed-cycle configuration with `min_words = 2 ≤ max_words = 3` (claim C7). -/
def c7cfg : Fixed.CaptionGenerator :=
  ⟨200 / 1000, 2, 3⟩

/-- A four-word segment of 100 ms: very fast speech (average time per word
far below the visibility floor). -/
def fastSeg : SubtitleSegment :=
  ⟨0, 1 / 10, "a b c d".toList, 0⟩

/-- Two already-sorted non-overlapping states (witness input for the level
assigner claims). -/
def demoStates : List CaptionState :=
  [⟨"a".toList, 0, 1 / 2, 0, 260, false⟩, ⟨"b".toList, 1 / 2, 1, 1, 260, false⟩]

/-- Temporal overlap of two caption states (the condition tested by the
fixed-cycle `assign_caption_levels`, written symmetrically):
`not (a.off <= b.on or a.on >= b.off)` for states with `on < off`. -/
def overlapsI (a b : CaptionState) : Prop :=
  a.on < b.off ∧ b.on < a.off

/-! ## Helper lemmas: clamping and uniform word timing -/

theorem le_clampQ (lo hi x : ℚ) : lo ≤ clampQ lo hi x :=
  le_max_left _ _

theorem clampQ_le (lo hi x : ℚ) (h : lo ≤ hi) : clampQ lo hi x ≤ hi :=
  max_le h (min_le_left _ _)

theorem clampQ_eq (lo hi x : ℚ) (h1 : lo ≤ x) (h2 : x ≤ hi) : clampQ lo hi x = x := by
  unfold clampQ
  rw [min_eq_right h2, max_eq_right h1]

theorem clampQ_mono (lo hi : ℚ) {x y : ℚ} (h : x ≤ y) :
    clampQ lo hi x ≤ clampQ lo hi y :=
  max_le_max le_rfl (min_le_min le_rfl h)

theorem uniformTimes_length (ss se slot : ℚ) (k : ℕ) :
    (uniformTimes ss se slot k).length = k := by
  unfold uniformTimes
  rw [List.length_map, List.length_range]

theorem uniformTimes_starts_mono (ss se slot : ℚ) (k : ℕ) (hslot : 0 ≤ slot) :
    (uniformTimes ss se slot k).Pairwise (fun p q => p.1 ≤ q.1) := by
  unfold uniformTimes
  refine List.pairwise_map.mpr ?_
  refine (List.pairwise_lt_range k).imp ?_
  intro i j hij
  dsimp only
  apply clampQ_mono
  have hc : (i : ℚ) ≤ (j : ℚ) := by exact_mod_cast hij.le
  nlinarith

theorem uniformTimes_bounds (ss se slot : ℚ) (k : ℕ) (hse : ss ≤ se) :
    ∀ p ∈ uniformTimes ss se slot k, ss ≤ p.1 ∧ p.1 ≤ se ∧ ss ≤ p.2 ∧ p.2 ≤ se := by
  intro p hp
  obtain ⟨i, _, rfl⟩ := List.mem_map.mp hp
  exact ⟨le_clampQ _ _ _, clampQ_le _ _ _ hse, le_clampQ _ _ _, clampQ_le _ _ _ hse⟩

theorem slot_nonneg (ss se m : ℚ) (k : ℕ) (hse : ss ≤ se) :
    0 ≤ max (se - ss) m / (k : ℚ) :=
  div_nonneg (le_max_of_le_left (by linarith)) (Nat.cast_nonneg k)

/-! ## Membership lemmas for the generated state lists -/

theorem mem_sortStates {s : CaptionState} {l : List CaptionState} (h : s ∈ sortStates l) :
    s ∈ l :=
  (List.perm_insertionSort stateKeyLE l).mem_iff.mp h

theorem Fixed.compute_word_times_length (cfg : Fixed.CaptionGenerator) (ss se : ℚ)
    (k : ℕ) : (cfg.compute_word_times ss se k).length = k := by
  unfold Fixed.CaptionGenerator.compute_word_times
  exact uniformTimes_length _ _ _ _

theorem Fixed.compute_word_times_bounds (cfg : Fixed.CaptionGenerator) (ss se : ℚ)
    (k : ℕ) (hse : ss ≤ se) :
    ∀ p ∈ cfg.compute_word_times ss se k, ss ≤ p.1 ∧ p.1 ≤ se ∧ ss ≤ p.2 ∧ p.2 ≤ se := by
  unfold Fixed.CaptionGenerator.compute_word_times
  exact uniformTimes_bounds _ _ _ _ hse

theorem Sliding.mem_segmentStates_min_visibility (cfg : Sliding.CaptionGenerator)
    (seg : SubtitleSegment) (c0 c1 : ℚ) (s : CaptionState)
    (h : s ∈ Sliding.segmentStates cfg seg c0 c1) :
    s.on + cfg.min_visibility_sec ≤ s.off ∧ s.skip = false := by
  simp only [Sliding.segmentStates] at h
  split at h
  · exact absurd h (List.not_mem_nil s)
  · split at h
    · exact absurd h (List.not_mem_nil s)
    · obtain ⟨i, _, rfl⟩ := List.mem_map.mp h
      exact ⟨le_max_right _ _, rfl⟩

theorem Fixed.groupState_off_spec (cfg : Fixed.CaptionGenerator) (ws : List (List Char))
    (wt : List (ℚ × ℚ)) (adj_start adj_end td : ℚ) (idx i word_count : ℕ)
    (hlen : wt.length = ws.length)
    (hbound : ∀ p ∈ wt, adj_start ≤ p.1 ∧ p.1 ≤ adj_end ∧ adj_start ≤ p.2 ∧ p.2 ≤ adj_end)
    (hlt : adj_start < adj_end) (hi : i < ws.length) :
    (Fixed.groupState cfg ws wt adj_start adj_end td idx i word_count).on <
        (Fixed.groupState cfg ws wt adj_start adj_end td idx i word_count).off →
      cfg.min_visibility_sec ≤
          (Fixed.groupState cfg ws wt adj_start adj_end td idx i word_count).off -
            (Fixed.groupState cfg ws wt adj_start adj_end td idx i word_count).on ∨
        (Fixed.groupState cfg ws wt adj_start adj_end td idx i word_count).off = adj_end := by
  have hiw : i < wt.length := by omega
  have hlwi : min (i + word_count - 1) (wt.length - 1) < wt.length := by omega
  have hON : (Fixed.groupState cfg ws wt adj_start adj_end td idx i word_count).on
      = clampQ adj_start adj_end ((wt.getD i (0, 0)).1) := by
    simp only [Fixed.groupState, if_pos hiw]
  have hOFF : (Fixed.groupState cfg ws wt adj_start adj_end td idx i word_count).off
      = clampQ adj_start adj_end
          (if (wt.getD (min (i + word_count - 1) (wt.length - 1)) (0, 0)).2
                - (wt.getD i (0, 0)).1 < cfg.min_visibility_sec
           then (wt.getD i (0, 0)).1 + cfg.min_visibility_sec
           else (wt.getD (min (i + word_count - 1) (wt.length - 1)) (0, 0)).2) := by
    simp only [Fixed.groupState, if_pos hiw, if_pos hlwi]
  have hmem1 : wt.getD i (0, 0) ∈ wt := by
    rw [List.getD_eq_getElem wt (0, 0) hiw]
    exact List.getElem_mem hiw
  have hmem2 : wt.getD (min (i + word_count - 1) (wt.length - 1)) (0, 0) ∈ wt := by
    rw [List.getD_eq_getElem wt (0, 0) hlwi]
    exact List.getElem_mem hlwi
  obtain ⟨ha1, ha2, -, -⟩ := hbound _ hmem1
  obtain ⟨-, -, hb1, hb2⟩ := hbound _ hmem2
  rw [hON, hOFF, clampQ_eq _ _ _ ha1 ha2]
  set a := (wt.getD i (0, 0)).1 with hadef
  set b := (wt.getD (min (i + word_count - 1) (wt.length - 1)) (0, 0)).2 with hbdef
  set off1 := if b - a < cfg.min_visibility_sec then a + cfg.min_visibility_sec else b
    with hoff1def
  have hoff1 : a + cfg.min_visibility_sec ≤ off1 := by
    rw [hoff1def]
    split
    · exact le_rfl
    · linarith [not_lt.mp (by assumption : ¬(b - a < cfg.min_visibility_sec))]
  intro hlt2
  rcases le_or_lt off1 adj_end with hc | hc
  · rcases le_or_lt adj_start off1 with hd | hd
    · rw [clampQ_eq _ _ _ hd hc] at hlt2 ⊢
      left
      linarith
    · exfalso
      have hz : clampQ adj_start adj_end off1 = adj_start := by
        unfold clampQ
        rw [min_eq_right hc, max_eq_left hd.le]
      rw [hz] at hlt2
      linarith
  · have hz : clampQ adj_start adj_end off1 = adj_end := by
      unfold clampQ
      rw [min_eq_left hc.le, max_eq_right hlt.le]
    rw [hz]
    right
    rfl

theorem Fixed.genGroups_spec (cfg : Fixed.CaptionGenerator) (ws : List (List Char))
    (wt : List (ℚ × ℚ)) (adj_start adj_end td avg : ℚ) (idx : ℕ)
    (hlen : wt.length = ws.length)
    (hbound : ∀ p ∈ wt, adj_start ≤ p.1 ∧ p.1 ≤ adj_end ∧ adj_start ≤ p.2 ∧ p.2 ≤ adj_end)
    (hlt : adj_start < adj_end) :
    ∀ (fuel i : ℕ),
      ∀ s ∈ Fixed.genGroups cfg ws wt adj_start adj_end td avg idx fuel i,
      ∃ j wc, i ≤ j ∧ j < ws.length ∧
        wc = min (cfg.determine_word_count j ws.length avg) (ws.length - j) ∧ 1 ≤ wc ∧
        s.text = joinSep ' ' ((ws.drop j).take wc) ∧
        s.seg_idx = idx ∧ s.skip = false ∧ s.y = 260 ∧ s.on < s.off ∧
        (cfg.min_visibility_sec ≤ s.off - s.on ∨ s.off = adj_end) := by
  intro fuel
  induction fuel with
  | zero => intro i s hs; exact absurd hs (List.not_mem_nil s)
  | succ fuel ih =>
    intro i s hs
    simp only [Fixed.genGroups] at hs
    by_cases hi : i < ws.length
    · rw [if_pos hi] at hs
      by_cases h0 : min (cfg.determine_word_count i ws.length avg) (ws.length - i) = 0
      · rw [if_pos h0] at hs
        exact absurd hs (List.not_mem_nil s)
      · rw [if_neg h0] at hs
        by_cases hemit :
            (Fixed.groupState cfg ws wt adj_start adj_end td idx i
                (min (cfg.determine_word_count i ws.length avg) (ws.length - i))).on <
              (Fixed.groupState cfg ws wt adj_start adj_end td idx i
                (min (cfg.determine_word_count i ws.length avg) (ws.length - i))).off
        · rw [if_pos hemit] at hs
          rcases List.mem_cons.mp hs with rfl | htail
          · refine ⟨i, min (cfg.determine_word_count i ws.length avg) (ws.length - i),
              le_rfl, hi, rfl, Nat.pos_of_ne_zero h0, rfl, rfl, rfl, rfl, hemit, ?_⟩
            exact Fixed.groupState_off_spec cfg ws wt adj_start adj_end td idx i _
              hlen hbound hlt hi hemit
          · obtain ⟨j, wc, hij, hrest⟩ := ih _ s htail
            exact ⟨j, wc, by omega, hrest⟩
        · rw [if_neg hemit] at hs
          obtain ⟨j, wc, hij, hrest⟩ := ih _ s hs
          exact ⟨j, wc, by omega, hrest⟩
    · rw [if_neg hi] at hs
      exact absurd hs (List.not_mem_nil s)

theorem Fixed.mem_segmentStates_elim (cfg : Fixed.CaptionGenerator)
    (seg : SubtitleSegment) (c0 c1 : ℚ) (s : CaptionState)
    (h : s ∈ Fixed.segmentStates cfg seg c0 c1) :
    max 0 (seg.start - c0) < min (c1 - c0) (seg.endTime - c0) ∧
    ∃ j wc, j < (tokenize seg.text).length ∧
      wc = min (cfg.determine_word_count j (tokenize seg.text).length
            ((min (c1 - c0) (seg.endTime - c0) - max 0 (seg.start - c0)) /
              ((tokenize seg.text).length : ℚ)))
          ((tokenize seg.text).length - j) ∧
      1 ≤ wc ∧
      s.text = joinSep ' ' (((tokenize seg.text).drop j).take wc) ∧
      s.seg_idx = seg.index ∧ s.skip = false ∧ s.y = 260 ∧ s.on < s.off ∧
      (cfg.min_visibility_sec ≤ s.off - s.on ∨
        s.off = min (c1 - c0) (seg.endTime - c0)) := by
  simp only [Fixed.segmentStates] at h
  split at h
  · exact absurd h (List.not_mem_nil s)
  · rename_i hadj
    split at h
    · exact absurd h (List.not_mem_nil s)
    · rename_i hne
      have hlt : max 0 (seg.start - c0) < min (c1 - c0) (seg.endTime - c0) := not_le.mp hadj
      have hlen0 : 0 < (tokenize seg.text).length := by
        cases hq : tokenize seg.text with
        | nil => rw [hq] at hne; exact absurd rfl hne
        | cons a l => exact Nat.succ_pos _
      rw [if_pos hlen0] at h
      refine ⟨hlt, ?_⟩
      obtain ⟨j, wc, -, hrest⟩ :=
        Fixed.genGroups_spec cfg (tokenize seg.text) _ _ _ _ _ seg.index
          (Fixed.compute_word_times_length cfg _ _ _)
          (Fixed.compute_word_times_bounds cfg _ _ _ hlt.le) hlt _ _ s h
      exact ⟨j, wc, hrest⟩

/-- C5 (confirmed): for every segment with `start ≤ end` and every word count
`k ≥ 1`, `compute_word_times` (in both variants) returns exactly `k`
intervals with non-decreasing starts, every endpoint clamped within
`[segment.start, segment.end]`; being a total function it never fails. -/
theorem c5_compute_word_times_spec :
    (∀ (cfg : Fixed.CaptionGenerator) (seg_start seg_end : ℚ) (k : ℕ),
      seg_start ≤ seg_end → 1 ≤ k →
      (cfg.compute_word_times seg_start seg_end k).length = k ∧
      (cfg.compute_word_times seg_start seg_end k).Pairwise (fun p q => p.1 ≤ q.1) ∧
      ∀ p ∈ cfg.compute_word_times seg_start seg_end k,
        seg_start ≤ p.1 ∧ p.1 ≤ seg_end ∧ seg_start ≤ p.2 ∧ p.2 ≤ seg_end) ∧
    (∀ (cfg : Sliding.CaptionGenerator) (seg_start seg_end : ℚ) (k : ℕ),
      seg_start ≤ seg_end → 1 ≤ k →
      (cfg.compute_word_times seg_start seg_end k).length = k ∧
      (cfg.compute_word_times seg_start seg_end k).Pairwise (fun p q => p.1 ≤ q.1) ∧
      ∀ p ∈ cfg.compute_word_times seg_start seg_end k,
        seg_start ≤ p.1 ∧ p.1 ≤ seg_end ∧ seg_start ≤ p.2 ∧ p.2 ≤ seg_end) := by
  constructor
  · intro cfg ss se k hse _
    unfold Fixed.CaptionGenerator.compute_word_times
    exact ⟨uniformTimes_length _ _ _ _,
           uniformTimes_starts_mono _ _ _ _ (slot_nonneg _ _ _ _ hse),
           uniformTimes_bounds _ _ _ _ hse⟩
  · intro cfg ss se k hse _
    unfold Sliding.CaptionGenerator.compute_word_times
    exact ⟨uniformTimes_length _ _ _ _,
           uniformTimes_starts_mono _ _ _ _ (slot_nonneg _ _ _ _ hse),
           uniformTimes_bounds _ _ _ _ hse⟩

/-- Witness for C5: both synthesizers evaluated on the one-second one-word
segment. -/
theorem c5_compute_word_times_spec_witness :
    ((0 : ℚ) ≤ 1 ∧ 1 ≤ (1 : ℕ)) ∧
    ((fixedDefaultCfg.compute_word_times 0 1 1).length = 1 ∧
      (fixedDefaultCfg.compute_word_times 0 1 1).Pairwise (fun p q => p.1 ≤ q.1) ∧
      ∀ p ∈ fixedDefaultCfg.compute_word_times 0 1 1,
        (0 : ℚ) ≤ p.1 ∧ p.1 ≤ 1 ∧ (0 : ℚ) ≤ p.2 ∧ p.2 ≤ 1) ∧
    ((slidingDefaultCfg.compute_word_times 0 1 1).length = 1 ∧
      (slidingDefaultCfg.compute_word_times 0 1 1).Pairwise (fun p q => p.1 ≤ q.1) ∧
      ∀ p ∈ slidingDefaultCfg.compute_word_times 0 1 1,
        (0 : ℚ) ≤ p.1 ∧ p.1 ≤ 1 ∧ (0 : ℚ) ≤ p.2 ∧ p.2 ≤ 1) :=
  ⟨⟨by norm_num, le_rfl⟩,
   c5_compute_word_times_spec.1 fixedDefaultCfg 0 1 1 (by norm_num) le_rfl,
   c5_compute_word_times_spec.2 slidingDefaultCfg 0 1 1 (by norm_num) le_rfl⟩

/-! ## Claim C8: configuration construction never fails -/

/-- C8 (code_bug): the source constructors perform no validation at all —
`CaptionGenerator.__init__` with `max_words < min_words` (fixed-cycle) and
with a negative visibility floor (sliding-window) both succeed silently,
whereas the spec requires construction to fail fast with a descriptive
error. -/
theorem c8_init_accepts_invalid_config :
    Fixed.CaptionGenerator.init 200 3 1 =
      Except.ok { min_visibility_sec := ((200 : ℤ) : ℚ) / 1000, min_words := 3,
                  max_words := 1 } ∧
    Sliding.CaptionGenerator.init 180 (-5) 50 5 =
      Except.ok { lead_in_sec := ((180 : ℤ) : ℚ) / 1000,
                  min_visibility_sec := ((-5 : ℤ) : ℚ) / 1000,
                  overlap_sec := ((50 : ℤ) : ℚ) / 1000, max_words := 5 } :=
  ⟨rfl, rfl⟩

/-! ## Tokenisation and joining lemmas -/

theorem wordsAux_wellformed :
    ∀ (s cur : List Char), (∀ c ∈ cur, isSpaceChar c = false) →
      ∀ w ∈ wordsAux s cur, w ≠ [] ∧ ∀ c ∈ w, isSpaceChar c = false := by
  intro s
  induction s with
  | nil =>
    intro cur hcur w hw
    simp only [wordsAux] at hw
    split at hw
    · exact absurd hw (List.not_mem_nil w)
    · rename_i hne
      rcases List.mem_singleton.mp hw with rfl
      refine ⟨?_, ?_⟩
      · intro hnil
        rw [List.reverse_eq_nil_iff] at hnil
        rw [hnil] at hne
        exact hne rfl
      · intro c hc
        exact hcur c (List.mem_reverse.mp hc)
  | cons a s ih =>
    intro cur hcur w hw
    simp only [wordsAux] at hw
    split at hw
    · split at hw
      · exact ih [] (by intro c hc; exact absurd hc (List.not_mem_nil c)) w hw
      · rename_i hsp hne
        rcases List.mem_cons.mp hw with rfl | hw2
        · refine ⟨?_, ?_⟩
          · intro hnil
            rw [List.reverse_eq_nil_iff] at hnil
            rw [hnil] at hne
            exact hne rfl
          · intro c hc
            exact hcur c (List.mem_reverse.mp hc)
        · exact ih [] (by intro c hc; exact absurd hc (List.not_mem_nil c)) w hw2
    · rename_i hsp
      refine ih (a :: cur) ?_ w hw
      intro c hc
      rcases List.mem_cons.mp hc with rfl | h2
      · exact eq_false_of_ne_true hsp
      · exact hcur c h2

theorem tokenize_wellformed (text : List Char) :
    ∀ w ∈ tokenize text, w ≠ [] ∧ ∀ c ∈ w, isSpaceChar c = false :=
  wordsAux_wellformed text []
    (by intro c hc; exact absurd hc (List.not_mem_nil c))

theorem wordsAux_nospace_append (w : List Char)
    (hw : ∀ c ∈ w, isSpaceChar c = false) :
    ∀ (rest cur : List Char), wordsAux (w ++ rest) cur = wordsAux rest (w.reverse ++ cur) := by
  induction w with
  | nil => intro rest cur; rfl
  | cons c w ih =>
    intro rest cur
    have hc : isSpaceChar c = false := hw c (List.mem_cons_self c w)
    show wordsAux (c :: (w ++ rest)) cur = wordsAux rest ((c :: w).reverse ++ cur)
    simp only [wordsAux]
    rw [if_neg (by simp [hc])]
    rw [ih (fun d hd => hw d (List.mem_cons_of_mem c hd)) rest (c :: cur)]
    rw [List.reverse_cons, List.append_assoc]
    rfl

theorem wordsAux_space_cons (sep : Char) (hsep : isSpaceChar sep = true)
    (rest cur : List Char) (hcur : cur ≠ []) :
    wordsAux (sep :: rest) cur = cur.reverse :: wordsAux rest [] := by
  simp only [wordsAux]
  rw [if_pos hsep, if_neg (by simpa [List.isEmpty_iff] using hcur)]

theorem tokenize_joinSep (sep : Char) (hsep : isSpaceChar sep = true) :
    ∀ ws : List (List Char),
      (∀ w ∈ ws, w ≠ [] ∧ ∀ c ∈ w, isSpaceChar c = false) →
      tokenize (joinSep sep ws) = ws := by
  intro ws
  induction ws with
  | nil => intro _; rfl
  | cons w ws ih =>
    intro hgood
    obtain ⟨hwne, hwns⟩ := hgood w (List.mem_cons_self w ws)
    cases ws with
    | nil =>
      show wordsAux (joinSep sep [w]) [] = [w]
      have h1 : joinSep sep [w] = w ++ [] := by simp [joinSep]
      rw [h1, wordsAux_nospace_append w hwns [] []]
      rw [List.append_nil]
      simp only [wordsAux]
      rw [if_neg (by
        simp only [List.isEmpty_iff, List.reverse_eq_nil_iff]
        exact fun h => hwne h)]
      rw [List.reverse_reverse]
    | cons x ws2 =>
      show wordsAux (w ++ sep :: joinSep sep (x :: ws2)) [] = w :: x :: ws2
      rw [wordsAux_nospace_append w hwns _ []]
      rw [List.append_nil]
      rw [wordsAux_space_cons sep hsep _ _ (by
        intro h; exact hwne (List.reverse_eq_nil_iff.mp h))]
      rw [List.reverse_reverse]
      have := ih (fun u hu => hgood u (List.mem_cons_of_mem w hu))
      rw [show tokenize (joinSep sep (x :: ws2)) = wordsAux (joinSep sep (x :: ws2)) []
        from rfl] at this
      rw [this]

/-! ## Analysis of `determine_word_count` in the normal-speech branch -/

theorem Fixed.determine_word_count_bounds (cfg : Fixed.CaptionGenerator)
    (j total : ℕ) (avg : ℚ) (hmm : cfg.min_words ≤ cfg.max_words)
    (hmv : 0 ≤ cfg.min_visibility_sec) (havg : cfg.min_visibility_sec ≤ avg) :
    cfg.determine_word_count j total avg ≤ cfg.max_words ∧
    (cfg.min_words ≤ total - j → cfg.min_words ≤ cfg.determine_word_count j total avg) ∧
    (total - j < cfg.min_words → cfg.determine_word_count j total avg = total - j) := by
  simp only [Fixed.CaptionGenerator.determine_word_count]
  rw [if_neg (by push_neg; linarith), if_neg (by push_neg; linarith)]
  split
  · rename_i hfix
    exact ⟨hmm, fun _ => le_rfl, fun hsmall => absurd hfix.2 (by omega)⟩
  · rename_i hfix
    rw [Classical.not_and_iff_or_not_not] at hfix
    refine ⟨by omega, ?_, ?_⟩
    · intro hge
      rcases hfix with hnlt | hnle
      · omega
      · exact absurd hge hnle
    · intro hsmall
      omega

/-! ## Claim C7: word-count bounds in fixed-cycle mode -/

/-- C7 (corrected), counterexample: with `min_words = 2 ≤ max_words = 3` and
a very fast four-word segment, the fast-speech branch of
`determine_word_count` ignores the configured bounds and emits one-word
groups; the first produced state has a one-token text although it is not
the final group of its segment (its text is not a suffix of the segment's
word list). -/
theorem c7_word_count_counterexample :
    c7cfg.generate_states [fastSeg] 0 1000
        = [⟨"a".toList, 0, 1 / 10, 0, 260, false⟩,
           ⟨"b".toList, 1 / 15, 1 / 10, 0, 260, false⟩] ∧
    (tokenize "a".toList).length < c7cfg.min_words ∧
    decide (List.IsSuffix (tokenize "a".toList) (tokenize fastSeg.text)) = false ∧
    decide (∀ s ∈ c7cfg.generate_states [fastSeg] 0 1000,
        s.skip = false →
          (c7cfg.min_words ≤ (tokenize s.text).length ∧
            (tokenize s.text).length ≤ c7cfg.max_words) ∨
          List.IsSuffix (tokenize s.text) (tokenize fastSeg.text)) = false :=
  ⟨by decide, by decide, by decide, by decide⟩

/-- C7 (corrected), amended: in fixed-cycle mode with
`1 ≤ min_words ≤ max_words` and a nonnegative visibility floor, and for
segments in the normal-speech regime (average time per word at least the
visibility floor — the fast-speech branches use hard-coded group sizes of
1 or 2 that ignore the configured bounds), every state's token count is at
most `max_words`, and it is at least `min_words` except for the final
group at the tail of its segment (whose words are a suffix of the
segment's word list). -/
theorem c7_word_count_amended :
    ∀ (cfg : Fixed.CaptionGenerator) (segs : List SubtitleSegment) (c0 c1 : ℚ),
      cfg.min_words ≤ cfg.max_words → 1 ≤ cfg.min_words →
      0 ≤ cfg.min_visibility_sec →
      (∀ seg ∈ segs,
        cfg.min_visibility_sec ≤
          (min (c1 - c0) (seg.endTime - c0) - max 0 (seg.start - c0)) /
            ((tokenize seg.text).length : ℚ)) →
      ∀ s ∈ cfg.generate_states segs c0 c1,
        (tokenize s.text).length ≤ cfg.max_words ∧
        (cfg.min_words ≤ (tokenize s.text).length ∨
          ∃ seg ∈ segs, s.seg_idx = seg.index ∧
            List.IsSuffix (tokenize s.text) (tokenize seg.text)) := by
  intro cfg segs c0 c1 hmm h1 hmv havg s h
  unfold Fixed.CaptionGenerator.generate_states at h
  obtain ⟨seg, hseg, hmem⟩ := List.mem_flatMap.mp (mem_sortStates h)
  obtain ⟨-, j, wc, hj, hwc, hwc1, htext, hsegidx, -, -, -, -⟩ :=
    Fixed.mem_segmentStates_elim cfg seg c0 c1 s hmem
  have hslice : ∀ w ∈ ((tokenize seg.text).drop j).take wc,
      w ≠ [] ∧ ∀ c ∈ w, isSpaceChar c = false := by
    intro w hw
    exact tokenize_wellformed seg.text w
      (List.mem_of_mem_drop (List.mem_of_mem_take hw))
  have htok : tokenize s.text = ((tokenize seg.text).drop j).take wc := by
    rw [htext]
    exact tokenize_joinSep ' ' (by decide) _ hslice
  have hwcle : wc ≤ (tokenize seg.text).length - j := by
    rw [hwc]; exact min_le_right _ _
  have hlen : (tokenize s.text).length = wc := by
    rw [htok, List.length_take, List.length_drop]
    omega
  obtain ⟨hub, hlb, htail⟩ :=
    Fixed.determine_word_count_bounds cfg j (tokenize seg.text).length
      ((min (c1 - c0) (seg.endTime - c0) - max 0 (seg.start - c0)) /
        ((tokenize seg.text).length : ℚ)) hmm hmv (havg seg hseg)
  rcases le_or_lt cfg.min_words ((tokenize seg.text).length - j) with hge | hlt
  · have : cfg.min_words ≤ wc := by
      rw [hwc]
      exact le_min (hlb hge) hge
    refine ⟨?_, Or.inl (by omega)⟩
    rw [hlen, hwc]
    exact le_trans (min_le_left _ _) hub
  · have hwcr : wc = (tokenize seg.text).length - j := by
      rw [hwc, htail hlt]
      omega
    refine ⟨by omega, Or.inr ⟨seg, hseg, hsegidx, ?_⟩⟩
    rw [htok, hwcr, List.take_of_length_le (by rw [List.length_drop])]
    exact List.drop_suffix j (tokenize seg.text)

/-- Witness for C7's amended statement: the two-word-bound configuration on
the slow one-word segment (whose single group is the segment tail). -/
theorem c7_word_count_amended_witness :
    (c7cfg.min_words ≤ c7cfg.max_words ∧ 1 ≤ c7cfg.min_words ∧
      (0 : ℚ) ≤ c7cfg.min_visibility_sec ∧
      (∀ seg ∈ [oneWordSeg],
        c7cfg.min_visibility_sec ≤
          (min ((1000 : ℚ) - 0) (seg.endTime - 0) - max 0 (seg.start - 0)) /
            ((tokenize seg.text).length : ℚ))) ∧
    ((tokenize ("hi".toList)).length ≤ c7cfg.max_words ∧
      (c7cfg.min_words ≤ (tokenize ("hi".toList)).length ∨
        ∃ seg ∈ [oneWordSeg], (0 : ℕ) = seg.index ∧
          List.IsSuffix (tokenize ("hi".toList)) (tokenize seg.text))) := by
  refine ⟨⟨by decide, by decide, by decide, by decide⟩, ?_⟩
  exact c7_word_count_amended c7cfg [oneWordSeg] 0 1000 (by decide) (by decide)
    (by decide) (by decide) ⟨"hi".toList, 0, 1, 0, 260, false⟩ (by decide)

/-! ## Wrapping lemmas and claim C9 -/

theorem joinSep_line_append (sep1 sep2 : Char) (h1 : isSpaceChar sep1 = true)
    (h2 : isSpaceChar sep2 = true) :
    ∀ line : List (List Char),
      (∀ w ∈ line, w ≠ [] ∧ ∀ c ∈ w, isSpaceChar c = false) →
      ∀ rest : List Char,
        wordsAux (joinSep sep1 line ++ sep2 :: rest) [] = line ++ wordsAux rest [] := by
  intro line
  induction line with
  | nil =>
    intro _ rest
    show wordsAux (sep2 :: rest) [] = wordsAux rest []
    simp only [wordsAux]
    rw [if_pos h2]
    simp
  | cons w line ih =>
    intro hgood rest
    obtain ⟨hwne, hwns⟩ := hgood w (List.mem_cons_self w line)
    cases line with
    | nil =>
      show wordsAux (w ++ sep2 :: rest) [] = [w] ++ wordsAux rest []
      rw [wordsAux_nospace_append w hwns _ [], List.append_nil]
      rw [wordsAux_space_cons sep2 h2 rest w.reverse
        (fun h => hwne (List.reverse_eq_nil_iff.mp h))]
      rw [List.reverse_reverse]
      rfl
    | cons w2 line2 =>
      show wordsAux ((w ++ sep1 :: joinSep sep1 (w2 :: line2)) ++ sep2 :: rest) []
          = (w :: w2 :: line2) ++ wordsAux rest []
      rw [List.append_assoc, List.cons_append]
      rw [wordsAux_nospace_append w hwns _ [], List.append_nil]
      rw [wordsAux_space_cons sep1 h1 _ w.reverse
        (fun h => hwne (List.reverse_eq_nil_iff.mp h))]
      rw [List.reverse_reverse]
      rw [ih (fun u hu => hgood u (List.mem_cons_of_mem w hu)) rest]
      rfl

theorem tokenize_joinLines (sep1 sep2 : Char) (h1 : isSpaceChar sep1 = true)
    (h2 : isSpaceChar sep2 = true) :
    ∀ lines : List (List (List Char)),
      (∀ line ∈ lines, ∀ w ∈ line, w ≠ [] ∧ ∀ c ∈ w, isSpaceChar c = false) →
      tokenize (joinSep sep2 (lines.map (joinSep sep1))) = lines.flatten := by
  intro lines
  induction lines with
  | nil => intro _; rfl
  | cons line lines ih =>
    intro hgood
    cases lines with
    | nil =>
      show tokenize (joinSep sep2 [joinSep sep1 line]) = [line].flatten
      have he : joinSep sep2 [joinSep sep1 line] = joinSep sep1 line := rfl
      rw [he, tokenize_joinSep sep1 h1 line (hgood line (List.mem_cons_self line []))]
      simp
    | cons line2 lines2 =>
      show wordsAux (joinSep sep1 line ++
          sep2 :: joinSep sep2 ((line2 :: lines2).map (joinSep sep1))) []
        = (line :: line2 :: lines2).flatten
      rw [joinSep_line_append sep1 sep2 h1 h2 line
        (hgood line (List.mem_cons_self line _)) _]
      have hih := ih (fun u hu w hw => hgood u (List.mem_cons_of_mem line hu) w hw)
      rw [show wordsAux (joinSep sep2 ((line2 :: lines2).map (joinSep sep1))) []
          = tokenize (joinSep sep2 ((line2 :: lines2).map (joinSep sep1))) from rfl]
      rw [hih]
      simp

theorem wrapStep_flatten (mc : ℕ) :
    ∀ (ws : List (List Char)) (lines : List (List (List Char))) (cur : List (List Char)),
      (ws.foldl (wrapStep mc) (lines, cur)).1.flatten ++ (ws.foldl (wrapStep mc) (lines, cur)).2
        = lines.flatten ++ cur ++ ws := by
  intro ws
  induction ws with
  | nil => intro lines cur; simp
  | cons w ws ih =>
    intro lines cur
    rw [List.foldl_cons]
    rw [show wrapStep mc (lines, cur) w =
        (if mc < (joinSep ' ' (cur ++ [w])).length then
          (if cur.isEmpty then lines else lines ++ [cur], [w])
        else (lines, cur ++ [w])) from rfl]
    split
    · split
      · rename_i hcur
        rw [ih lines [w]]
        have hc : cur = [] := List.isEmpty_iff.mp hcur
        subst hc
        simp
      · rw [ih (lines ++ [cur]) [w]]
        simp [List.flatten_append, List.append_assoc]
    · rw [ih lines (cur ++ [w])]
      simp [List.append_assoc]

theorem wrapLines_flatten (ws : List (List Char)) (mc : ℕ) :
    (wrapLines ws mc).flatten = ws := by
  have h := wrapStep_flatten mc ws [] []
  simp only [List.flatten_nil, List.nil_append] at h
  unfold wrapLines
  dsimp only
  split
  · rename_i hemp
    have he : (ws.foldl (wrapStep mc) ([], [])).2 = [] := List.isEmpty_iff.mp hemp
    rw [he] at h
    simpa using h
  · rw [List.flatten_append]
    simpa using h

theorem tokenize_wrap_text (text : List Char) (mc : ℕ) :
    tokenize (wrap_text text mc) = tokenize text := by
  unfold wrap_text
  rw [tokenize_joinLines ' ' (Char.ofNat 10) (by decide) (by decide)
    (wrapLines (tokenize text) mc) ?_]
  · exact wrapLines_flatten (tokenize text) mc
  · intro line hline w hw
    refine tokenize_wellformed text w ?_
    have hmem : w ∈ (wrapLines (tokenize text) mc).flatten :=
      List.mem_flatten.mpr ⟨line, hline, hw⟩
    rwa [wrapLines_flatten] at hmem

/-- C9 (confirmed): the greedy text wrapper is idempotent —
`wrap(wrap(text, w), w) = wrap(text, w)` for every text and line width.
Wrapping depends only on the whitespace tokenisation of its input, and the
tokenisation of a wrapped text equals that of the original. -/
theorem c9_wrap_text_idempotent :
    ∀ (text : List Char) (w : ℕ), wrap_text (wrap_text text w) w = wrap_text text w := by
  intro text w
  show joinSep (Char.ofNat 10)
      ((wrapLines (tokenize (wrap_text text w)) w).map (joinSep ' '))
    = wrap_text text w
  rw [tokenize_wrap_text]
  rfl

/-! ## Level assigner lemmas -/

theorem overlapB_iff (s t : CaptionState) :
    Fixed.overlapB s t = true ↔ overlapsI s t := by
  unfold Fixed.overlapB overlapsI
  simp only [Bool.not_eq_true', Bool.or_eq_false_iff, decide_eq_false_iff_not, not_le,
    ge_iff_le]
  exact and_comm

theorem overlapB_eq_false (s t : CaptionState) (h : Fixed.overlapB s t = false) :
    s.off ≤ t.on ∨ t.off ≤ s.on := by
  unfold Fixed.overlapB at h
  simp only [Bool.not_eq_false', Bool.or_eq_true, decide_eq_true_eq, ge_iff_le] at h
  exact h

theorem Fixed.assignGo_off_bound :
    ∀ (l levels : List CaptionState),
      l.Pairwise (fun a b => a.on ≤ b.on) →
      (∀ t ∈ levels, ∀ u ∈ l, t.on ≤ u.on) →
      (∀ u ∈ l, u.on < u.off) →
      ∀ t ∈ levels, ∀ b ∈ Fixed.assignGo levels l, b.skip = false → t.off ≤ b.on := by
  intro l
  induction l with
  | nil =>
    intro levels _ _ _ t _ b hb
    exact absurd hb (List.not_mem_nil b)
  | cons s rest ih =>
    intro levels hsort hinv hoffon t ht b hb hbs
    have hsort' := (List.pairwise_cons.mp hsort).2
    have hson := (List.pairwise_cons.mp hsort).1
    simp only [Fixed.assignGo] at hb
    split at hb
    · rcases List.mem_cons.mp hb with rfl | hb2
      · exact absurd hbs (by simp)
      · exact ih levels hsort'
          (fun u hu v hv => hinv u hu v (List.mem_cons_of_mem s hv))
          (fun v hv => hoffon v (List.mem_cons_of_mem s hv)) t ht b hb2 hbs
    · rename_i hov
      have hnov : ∀ u ∈ levels, Fixed.overlapB s u = false := by
        intro u hu
        by_contra hcon
        exact hov (List.any_eq_true.mpr ⟨u, hu, by
          cases hq : Fixed.overlapB s u with
          | false => exact absurd hq hcon
          | true => rfl⟩)
      rcases List.mem_cons.mp hb with rfl | hb2
      · show t.off ≤ s.on
        rcases overlapB_eq_false s t (hnov t ht) with h1 | h1
        · exfalso
          have h2 : t.on ≤ s.on := hinv t ht s (List.mem_cons_self s rest)
          have h3 : s.on < s.off := hoffon s (List.mem_cons_self s rest)
          linarith
        · exact h1
      · refine ih (levels ++ [{ s with y := 260 }]) hsort' ?_
          (fun v hv => hoffon v (List.mem_cons_of_mem s hv))
          t (List.mem_append_left _ ht) b hb2 hbs
        intro u hu v hv
        rcases List.mem_append.mp hu with hul | hus
        · exact hinv u hul v (List.mem_cons_of_mem s hv)
        · rw [List.mem_singleton] at hus
          subst hus
          exact hson v hv

theorem Fixed.assignGo_pairwise :
    ∀ (l levels : List CaptionState),
      l.Pairwise (fun a b => a.on ≤ b.on) →
      (∀ t ∈ levels, ∀ u ∈ l, t.on ≤ u.on) →
      (∀ u ∈ l, u.on < u.off) →
      (Fixed.assignGo levels l).Pairwise
        (fun a b => a.skip = false → b.skip = false → a.y = b.y → a.off ≤ b.on) := by
  intro l
  induction l with
  | nil => intro levels _ _ _; exact List.Pairwise.nil
  | cons s rest ih =>
    intro levels hsort hinv hoffon
    have hsort' := (List.pairwise_cons.mp hsort).2
    have hson := (List.pairwise_cons.mp hsort).1
    simp only [Fixed.assignGo]
    split
    · refine List.pairwise_cons.mpr ⟨?_, ?_⟩
      · intro b _ hskip
        exact absurd hskip (by simp)
      · exact ih levels hsort'
          (fun u hu v hv => hinv u hu v (List.mem_cons_of_mem s hv))
          (fun v hv => hoffon v (List.mem_cons_of_mem s hv))
    · rename_i hov
      have hinv' : ∀ u ∈ levels ++ [{ s with y := 260 }], ∀ v ∈ rest, u.on ≤ v.on := by
        intro u hu v hv
        rcases List.mem_append.mp hu with hul | hus
        · exact hinv u hul v (List.mem_cons_of_mem s hv)
        · rw [List.mem_singleton] at hus
          subst hus
          exact hson v hv
      refine List.pairwise_cons.mpr ⟨?_, ?_⟩
      · intro b hb _ hbs _
        exact Fixed.assignGo_off_bound rest (levels ++ [{ s with y := 260 }]) hsort'
          hinv' (fun v hv => hoffon v (List.mem_cons_of_mem s hv))
          { s with y := 260 } (List.mem_append_right _ (List.mem_singleton_self _))
          b hb hbs
      · exact ih (levels ++ [{ s with y := 260 }]) hsort' hinv'
          (fun v hv => hoffon v (List.mem_cons_of_mem s hv))

theorem Sliding.levelAcceptsLast_all :
    ∀ (L : List CaptionState) (s : CaptionState),
      L.Pairwise (fun a b => a.off ≤ b.on) →
      (∀ u ∈ L, u.on ≤ s.on) →
      Sliding.levelAcceptsLast L s = true →
      ∀ t ∈ L, t.off ≤ s.on := by
  intro L
  induction L with
  | nil => intro s _ _ _ t ht; exact absurd ht (List.not_mem_nil t)
  | cons a L ih =>
    intro s hPW hOn hacc t ht
    cases L with
    | nil =>
      rw [List.mem_singleton] at ht
      subst ht
      have : decide (t.off ≤ s.on) = true := hacc
      exact of_decide_eq_true this
    | cons x l =>
      have hacc' : Sliding.levelAcceptsLast (x :: l) s = true := by
        rw [show Sliding.levelAcceptsLast (a :: x :: l) s
            = Sliding.levelAcceptsLast (x :: l) s from by
          simp only [Sliding.levelAcceptsLast, List.getLast?_cons_cons]] at hacc
        exact hacc
      rcases List.mem_cons.mp ht with rfl | ht2
      · have h1 : t.off ≤ x.on :=
          (List.pairwise_cons.mp hPW).1 x (List.mem_cons_self x l)
        have h2 : x.on ≤ s.on := hOn x (List.mem_cons_of_mem _ (List.mem_cons_self x l))
        linarith
      · exact ih s (List.pairwise_cons.mp hPW).2
          (fun u hu => hOn u (List.mem_cons_of_mem _ hu)) hacc' t ht2

theorem Sliding.assignGo_two_level_off_bound :
    ∀ (l L0 L1 : List CaptionState),
      l.Pairwise (fun a b => a.on ≤ b.on) →
      L0.Pairwise (fun a b => a.off ≤ b.on) → (∀ u ∈ L0, ∀ v ∈ l, u.on ≤ v.on) →
      L1.Pairwise (fun a b => a.off ≤ b.on) → (∀ u ∈ L1, ∀ v ∈ l, u.on ≤ v.on) →
      ∀ (t : CaptionState) (yv : ℤ),
        ((t ∈ L0 ∧ yv = 260) ∨ (t ∈ L1 ∧ yv = 320)) →
        ∀ b ∈ Sliding.assignGo L0 L1 l, b.skip = false → b.y = yv → t.off ≤ b.on := by
  intro l
  induction l with
  | nil =>
    intro L0 L1 _ _ _ _ _ t yv _ b hb
    exact absurd hb (List.not_mem_nil b)
  | cons s rest ih =>
    intro L0 L1 hsort hp0 hi0 hp1 hi1 t yv hty b hb hbs hby
    have hsort' := (List.pairwise_cons.mp hsort).2
    have hson := (List.pairwise_cons.mp hsort).1
    have hmemhead : s ∈ s :: rest := List.mem_cons_self s rest
    simp only [Sliding.assignGo] at hb
    split at hb
    · rename_i hacc0
      have hall0 : ∀ u ∈ L0, u.off ≤ s.on :=
        Sliding.levelAcceptsLast_all L0 s hp0 (fun u hu => hi0 u hu s hmemhead) hacc0
      rcases List.mem_cons.mp hb with rfl | hb2
      · rcases hty with ⟨htL, hyv⟩ | ⟨htL, hyv⟩
        · exact hall0 t htL
        · exfalso
          rw [hyv] at hby
          exact absurd (show (260 : ℤ) = 320 from hby) (by decide)
      · refine ih (L0 ++ [{ s with y := 260 }]) L1 hsort' ?_ ?_ hp1
          (fun u hu v hv => hi1 u hu v (List.mem_cons_of_mem s hv)) t yv ?_ b hb2 hbs hby
        · refine List.pairwise_append.mpr ⟨hp0, List.pairwise_singleton (fun (a b : CaptionState) => a.off ≤ b.on) _, ?_⟩
          intro u hu v hv
          rw [List.mem_singleton] at hv
          subst hv
          exact hall0 u hu
        · intro u hu v hv
          rcases List.mem_append.mp hu with hul | hus
          · exact hi0 u hul v (List.mem_cons_of_mem s hv)
          · rw [List.mem_singleton] at hus
            subst hus
            exact hson v hv
        · rcases hty with ⟨htL, hyv⟩ | ⟨htL, hyv⟩
          · exact Or.inl ⟨List.mem_append_left _ htL, hyv⟩
          · exact Or.inr ⟨htL, hyv⟩
    · split at hb
      · rename_i hacc1
        have hall1 : ∀ u ∈ L1, u.off ≤ s.on :=
          Sliding.levelAcceptsLast_all L1 s hp1 (fun u hu => hi1 u hu s hmemhead) hacc1
        rcases List.mem_cons.mp hb with rfl | hb2
        · rcases hty with ⟨htL, hyv⟩ | ⟨htL, hyv⟩
          · exfalso
            rw [hyv] at hby
            exact absurd (show (320 : ℤ) = 260 from hby) (by decide)
          · exact hall1 t htL
        · refine ih L0 (L1 ++ [{ s with y := 320 }])
            hsort' hp0 (fun u hu v hv => hi0 u hu v (List.mem_cons_of_mem s hv))
            ?_ ?_ t yv ?_ b hb2 hbs hby
          · refine List.pairwise_append.mpr ⟨hp1, List.pairwise_singleton (fun (a b : CaptionState) => a.off ≤ b.on) _, ?_⟩
            intro u hu v hv
            rw [List.mem_singleton] at hv
            subst hv
            exact hall1 u hu
          · intro u hu v hv
            rcases List.mem_append.mp hu with hul | hus
            · exact hi1 u hul v (List.mem_cons_of_mem s hv)
            · rw [List.mem_singleton] at hus
              subst hus
              exact hson v hv
          · rcases hty with ⟨htL, hyv⟩ | ⟨htL, hyv⟩
            · exact Or.inl ⟨htL, hyv⟩
            · exact Or.inr ⟨List.mem_append_left _ htL, hyv⟩
      · rcases List.mem_cons.mp hb with rfl | hb2
        · exact absurd hbs (by simp)
        · exact ih L0 L1 hsort'
            hp0 (fun u hu v hv => hi0 u hu v (List.mem_cons_of_mem s hv))
            hp1 (fun u hu v hv => hi1 u hu v (List.mem_cons_of_mem s hv))
            t yv hty b hb2 hbs hby

theorem Sliding.assignGo_two_level_pairwise :
    ∀ (l L0 L1 : List CaptionState),
      l.Pairwise (fun a b => a.on ≤ b.on) →
      L0.Pairwise (fun a b => a.off ≤ b.on) → (∀ u ∈ L0, ∀ v ∈ l, u.on ≤ v.on) →
      L1.Pairwise (fun a b => a.off ≤ b.on) → (∀ u ∈ L1, ∀ v ∈ l, u.on ≤ v.on) →
      (Sliding.assignGo L0 L1 l).Pairwise
        (fun a b => a.skip = false → b.skip = false → a.y = b.y → a.off ≤ b.on) := by
  intro l
  induction l with
  | nil => intro L0 L1 _ _ _ _ _; exact List.Pairwise.nil
  | cons s rest ih =>
    intro L0 L1 hsort hp0 hi0 hp1 hi1
    have hsort' := (List.pairwise_cons.mp hsort).2
    have hson := (List.pairwise_cons.mp hsort).1
    have hmemhead : s ∈ s :: rest := List.mem_cons_self s rest
    simp only [Sliding.assignGo]
    split
    · rename_i hacc0
      have hall0 : ∀ u ∈ L0, u.off ≤ s.on :=
        Sliding.levelAcceptsLast_all L0 s hp0 (fun u hu => hi0 u hu s hmemhead) hacc0
      have hp0' : (L0 ++ [{ s with y := 260 }]).Pairwise (fun (a b : CaptionState) => a.off ≤ b.on) := by
        refine List.pairwise_append.mpr ⟨hp0, List.pairwise_singleton (fun (a b : CaptionState) => a.off ≤ b.on) _, ?_⟩
        intro u hu v hv
        rw [List.mem_singleton] at hv
        subst hv
        exact hall0 u hu
      have hi0' : ∀ u ∈ L0 ++ [{ s with y := 260 }], ∀ v ∈ rest, u.on ≤ v.on := by
        intro u hu v hv
        rcases List.mem_append.mp hu with hul | hus
        · exact hi0 u hul v (List.mem_cons_of_mem s hv)
        · rw [List.mem_singleton] at hus
          subst hus
          exact hson v hv
      refine List.pairwise_cons.mpr ⟨?_, ?_⟩
      · intro b hb _ hbs hy
        exact Sliding.assignGo_two_level_off_bound rest (L0 ++ [{ s with y := 260 }]) L1 hsort'
          hp0' hi0' hp1 (fun u hu v hv => hi1 u hu v (List.mem_cons_of_mem s hv))
          { s with y := 260 } 260
          (Or.inl ⟨List.mem_append_right _ (List.mem_singleton_self _), rfl⟩)
          b hb hbs hy.symm
      · exact ih (L0 ++ [{ s with y := 260 }]) L1 hsort' hp0' hi0' hp1
          (fun u hu v hv => hi1 u hu v (List.mem_cons_of_mem s hv))
    · split
      · rename_i hacc1
        have hall1 : ∀ u ∈ L1, u.off ≤ s.on :=
          Sliding.levelAcceptsLast_all L1 s hp1 (fun u hu => hi1 u hu s hmemhead) hacc1
        have hp1' : (L1 ++ [{ s with y := 320 }]).Pairwise (fun (a b : CaptionState) => a.off ≤ b.on) := by
          refine List.pairwise_append.mpr ⟨hp1, List.pairwise_singleton (fun (a b : CaptionState) => a.off ≤ b.on) _, ?_⟩
          intro u hu v hv
          rw [List.mem_singleton] at hv
          subst hv
          exact hall1 u hu
        have hi1' : ∀ u ∈ L1 ++ [{ s with y := 320 }], ∀ v ∈ rest, u.on ≤ v.on := by
          intro u hu v hv
          rcases List.mem_append.mp hu with hul | hus
          · exact hi1 u hul v (List.mem_cons_of_mem s hv)
          · rw [List.mem_singleton] at hus
            subst hus
            exact hson v hv
        refine List.pairwise_cons.mpr ⟨?_, ?_⟩
        · intro b hb _ hbs hy
          exact Sliding.assignGo_two_level_off_bound rest L0 (L1 ++ [{ s with y := 320 }]) hsort'
            hp0 (fun u hu v hv => hi0 u hu v (List.mem_cons_of_mem s hv)) hp1' hi1'
            { s with y := 320 } 320
            (Or.inr ⟨List.mem_append_right _ (List.mem_singleton_self _), rfl⟩)
            b hb hbs hy.symm
        · exact ih L0 (L1 ++ [{ s with y := 320 }]) hsort'
            hp0 (fun u hu v hv => hi0 u hu v (List.mem_cons_of_mem s hv)) hp1' hi1'
      · refine List.pairwise_cons.mpr ⟨?_, ?_⟩
        · intro b _ hskip
          exact absurd hskip (by simp)
        · exact ih L0 L1 hsort'
            hp0 (fun u hu v hv => hi0 u hu v (List.mem_cons_of_mem s hv))
            hp1 (fun u hu v hv => hi1 u hu v (List.mem_cons_of_mem s hv))

/-! ## Claim C3: non-overlap per level after assignment -/

/-- C3 (confirmed): after level assignment (either assigner), any two
non-skipped states on the same level, in input order (which is ascending
`on` order by hypothesis), satisfy `earlier.off ≤ later.on`.  The input is
required to be sorted ascending by `on` and to satisfy `off > on`, both of
which the builders establish. -/
theorem c3_no_overlap_per_level :
    ∀ l : List CaptionState,
      l.Pairwise (fun a b => a.on ≤ b.on) →
      (∀ u ∈ l, u.on < u.off) →
      (Sliding.assign_caption_levels l).Pairwise
        (fun a b => a.skip = false → b.skip = false → a.y = b.y → a.off ≤ b.on) ∧
      (Fixed.assign_caption_levels l).Pairwise
        (fun a b => a.skip = false → b.skip = false → a.y = b.y → a.off ≤ b.on) := by
  intro l hsort hoffon
  constructor
  · unfold Sliding.assign_caption_levels
    exact Sliding.assignGo_two_level_pairwise l [] [] hsort List.Pairwise.nil
      (fun u hu => absurd hu (List.not_mem_nil u)) List.Pairwise.nil
      (fun u hu => absurd hu (List.not_mem_nil u))
  · unfold Fixed.assign_caption_levels
    exact Fixed.assignGo_pairwise l [] hsort
      (fun t ht => absurd ht (List.not_mem_nil t)) hoffon

/-- Witness for C3: the two sorted non-overlapping demo states. -/
theorem c3_no_overlap_per_level_witness :
    (demoStates.Pairwise (fun a b => a.on ≤ b.on) ∧ ∀ u ∈ demoStates, u.on < u.off) ∧
    (Sliding.assign_caption_levels demoStates).Pairwise
      (fun a b => a.skip = false → b.skip = false → a.y = b.y → a.off ≤ b.on) ∧
    (Fixed.assign_caption_levels demoStates).Pairwise
      (fun a b => a.skip = false → b.skip = false → a.y = b.y → a.off ≤ b.on) :=
  ⟨⟨by decide, by decide⟩,
   (c3_no_overlap_per_level demoStates (by decide) (by decide)).1,
   (c3_no_overlap_per_level demoStates (by decide) (by decide)).2⟩

/-! ## Claim C4: last-off level assigner refines the full-history one -/

theorem Sliding.levelAcceptsAll_iff (L : List CaptionState) (s : CaptionState) :
    Sliding.levelAcceptsAll L s = true ↔ ∀ t ∈ L, s.off ≤ t.on ∨ t.off ≤ s.on := by
  unfold Sliding.levelAcceptsAll
  rw [List.all_eq_true]
  constructor
  · intro h t ht
    have := h t ht
    simpa [ge_iff_le] using this
  · intro h t ht
    simpa [ge_iff_le] using h t ht

theorem Sliding.accepts_iff (s : CaptionState) (hs : s.on < s.off) :
    ∀ L : List CaptionState,
      L.Pairwise (fun a b => a.off ≤ b.on) →
      (∀ u ∈ L, u.on ≤ s.on) →
      Sliding.levelAcceptsLast L s = Sliding.levelAcceptsAll L s := by
  intro L hPW hOn
  by_cases h : Sliding.levelAcceptsLast L s = true
  · rw [h]
    symm
    rw [Sliding.levelAcceptsAll_iff]
    intro t ht
    exact Or.inr (Sliding.levelAcceptsLast_all L s hPW hOn h t ht)
  · have hfalse : Sliding.levelAcceptsLast L s = false := by
      cases hq : Sliding.levelAcceptsLast L s with
      | false => rfl
      | true => exact absurd hq h
    rw [hfalse]
    symm
    cases hq : L.getLast? with
    | none =>
      exfalso
      apply h
      unfold Sliding.levelAcceptsLast
      rw [hq]
    | some t0 =>
      have ht0mem : t0 ∈ L := List.mem_of_getLast?_eq_some hq
      have hn : ¬(t0.off ≤ s.on) := by
        intro hle
        apply h
        unfold Sliding.levelAcceptsLast
        rw [hq]
        exact decide_eq_true hle
      cases hq2 : Sliding.levelAcceptsAll L s with
      | false => rfl
      | true =>
        exfalso
        rcases (Sliding.levelAcceptsAll_iff L s).mp hq2 t0 ht0mem with h1 | h1
        · have := hOn t0 ht0mem
          linarith
        · exact hn h1

theorem Sliding.assignGo_eq_assignAllGo :
    ∀ (l L0 L1 : List CaptionState),
      l.Pairwise (fun a b => a.on ≤ b.on) → (∀ u ∈ l, u.on < u.off) →
      L0.Pairwise (fun a b => a.off ≤ b.on) → (∀ u ∈ L0, ∀ v ∈ l, u.on ≤ v.on) →
      L1.Pairwise (fun a b => a.off ≤ b.on) → (∀ u ∈ L1, ∀ v ∈ l, u.on ≤ v.on) →
      Sliding.assignGo L0 L1 l = Sliding.assignAllGo L0 L1 l := by
  intro l
  induction l with
  | nil => intro L0 L1 _ _ _ _ _ _; rfl
  | cons s rest ih =>
    intro L0 L1 hsort hoffon hp0 hi0 hp1 hi1
    have hsort' := (List.pairwise_cons.mp hsort).2
    have hson := (List.pairwise_cons.mp hsort).1
    have hoffon' : ∀ u ∈ rest, u.on < u.off :=
      fun u hu => hoffon u (List.mem_cons_of_mem s hu)
    have hmemhead : s ∈ s :: rest := List.mem_cons_self s rest
    have hshead : s.on < s.off := hoffon s hmemhead
    have e0 : Sliding.levelAcceptsAll L0 s = Sliding.levelAcceptsLast L0 s :=
      (Sliding.accepts_iff s hshead L0 hp0 (fun u hu => hi0 u hu s hmemhead)).symm
    have e1 : Sliding.levelAcceptsAll L1 s = Sliding.levelAcceptsLast L1 s :=
      (Sliding.accepts_iff s hshead L1 hp1 (fun u hu => hi1 u hu s hmemhead)).symm
    simp only [Sliding.assignGo, Sliding.assignAllGo, e0, e1]
    by_cases h0 : Sliding.levelAcceptsLast L0 s = true
    · rw [if_pos h0, if_pos h0]
      have hall0 : ∀ u ∈ L0, u.off ≤ s.on :=
        Sliding.levelAcceptsLast_all L0 s hp0 (fun u hu => hi0 u hu s hmemhead) h0
      congr 1
      refine ih (L0 ++ [{ s with y := 260 }]) L1 hsort' hoffon' ?_ ?_ hp1
        (fun u hu v hv => hi1 u hu v (List.mem_cons_of_mem s hv))
      · refine List.pairwise_append.mpr
          ⟨hp0, List.pairwise_singleton (fun (a b : CaptionState) => a.off ≤ b.on) _, ?_⟩
        intro u hu v hv
        rw [List.mem_singleton] at hv
        subst hv
        exact hall0 u hu
      · intro u hu v hv
        rcases List.mem_append.mp hu with hul | hus
        · exact hi0 u hul v (List.mem_cons_of_mem s hv)
        · rw [List.mem_singleton] at hus
          subst hus
          exact hson v hv
    · rw [if_neg h0, if_neg h0]
      by_cases h1 : Sliding.levelAcceptsLast L1 s = true
      · rw [if_pos h1, if_pos h1]
        have hall1 : ∀ u ∈ L1, u.off ≤ s.on :=
          Sliding.levelAcceptsLast_all L1 s hp1 (fun u hu => hi1 u hu s hmemhead) h1
        congr 1
        refine ih L0 (L1 ++ [{ s with y := 320 }]) hsort' hoffon'
          hp0 (fun u hu v hv => hi0 u hu v (List.mem_cons_of_mem s hv)) ?_ ?_
        · refine List.pairwise_append.mpr
            ⟨hp1, List.pairwise_singleton (fun (a b : CaptionState) => a.off ≤ b.on) _, ?_⟩
          intro u hu v hv
          rw [List.mem_singleton] at hv
          subst hv
          exact hall1 u hu
        · intro u hu v hv
          rcases List.mem_append.mp hu with hul | hus
          · exact hi1 u hul v (List.mem_cons_of_mem s hv)
          · rw [List.mem_singleton] at hus
            subst hus
            exact hson v hv
      · rw [if_neg h1, if_neg h1]
        congr 1
        exact ih L0 L1 hsort' hoffon'
          hp0 (fun u hu v hv => hi0 u hu v (List.mem_cons_of_mem s hv))
          hp1 (fun u hu v hv => hi1 u hu v (List.mem_cons_of_mem s hv))

/-- C4 (confirmed): on inputs sorted ascending by `(on, source_index)` in
which every state satisfies `off > on`, the sliding-window level assigner
that keeps only the `off` of the last state accepted on each level
produces exactly the same output (accept/skip decisions and level
assignments) as the assigner that checks the new state for overlap
against every previously accepted state on the level. -/
theorem c4_last_off_assigner_refines_full_history :
    ∀ l : List CaptionState,
      l.Pairwise stateKeyLE → (∀ u ∈ l, u.on < u.off) →
      Sliding.assign_caption_levels l = Sliding.assign_caption_levels_full_history l := by
  intro l hsort hoffon
  unfold Sliding.assign_caption_levels Sliding.assign_caption_levels_full_history
  refine Sliding.assignGo_eq_assignAllGo l [] [] ?_ hoffon List.Pairwise.nil
    (fun u hu => absurd hu (List.not_mem_nil u)) List.Pairwise.nil
    (fun u hu => absurd hu (List.not_mem_nil u))
  refine hsort.imp ?_
  intro a b hk
  rcases hk with h | ⟨h, -⟩
  · exact le_of_lt h
  · exact le_of_eq h

/-- Witness for C4: both assigners agree on the demo states. -/
theorem c4_last_off_assigner_refines_full_history_witness :
    (demoStates.Pairwise stateKeyLE ∧ ∀ u ∈ demoStates, u.on < u.off) ∧
    Sliding.assign_caption_levels demoStates
      = Sliding.assign_caption_levels_full_history demoStates :=
  ⟨⟨by decide, by decide⟩,
   c4_last_off_assigner_refines_full_history demoStates (by decide) (by decide)⟩

/-! ## Claim C10: characterisation of the fixed-cycle assigner -/

theorem Fixed.assignGo_spec :
    ∀ (l levels : List CaptionState), (∀ u ∈ l, u.skip = false) →
      (Fixed.assignGo levels l).length = l.length ∧
      (∀ b ∈ Fixed.assignGo levels l, b.skip = false → b.y = 260) ∧
      (∀ i, i < l.length →
        ((Fixed.assignGo levels l).getD i default).on = (l.getD i default).on ∧
        ((Fixed.assignGo levels l).getD i default).off = (l.getD i default).off ∧
        (((Fixed.assignGo levels l).getD i default).skip = true ↔
          (∃ t ∈ levels, overlapsI (l.getD i default) t) ∨
          ∃ j, j < i ∧ ((Fixed.assignGo levels l).getD j default).skip = false ∧
            overlapsI (l.getD i default) (l.getD j default))) := by
  intro l
  induction l with
  | nil =>
    intro levels _
    refine ⟨rfl, ?_, ?_⟩
    · intro b hb
      exact absurd hb (List.not_mem_nil b)
    · intro i hi
      exact absurd hi (Nat.not_lt_zero i)
  | cons s rest ih =>
    intro levels hskip
    have hs0 : s.skip = false := hskip s (List.mem_cons_self s rest)
    have hrest : ∀ u ∈ rest, u.skip = false :=
      fun u hu => hskip u (List.mem_cons_of_mem s hu)
    simp only [Fixed.assignGo]
    split
    · rename_i hov
      obtain ⟨hlen, hy, hidx⟩ := ih levels hrest
      have hovP : ∃ t ∈ levels, overlapsI s t := by
        obtain ⟨t, ht, hbt⟩ := List.any_eq_true.mp hov
        exact ⟨t, ht, (overlapB_iff s t).mp hbt⟩
      refine ⟨by simpa using hlen, ?_, ?_⟩
      · intro b hb
        rcases List.mem_cons.mp hb with rfl | hb2
        · intro hbs
          exact absurd hbs (by simp)
        · exact hy b hb2
      · intro i hi
        cases i with
        | zero =>
          refine ⟨rfl, rfl, ?_⟩
          simp only [List.getD_cons_zero]
          constructor
          · intro _
            exact Or.inl hovP
          · intro _
            trivial
        | succ i =>
          have hi' : i < rest.length := by simpa using hi
          obtain ⟨h2, h3, h5⟩ := hidx i hi'
          simp only [List.getD_cons_succ]
          refine ⟨h2, h3, ?_⟩
          rw [h5]
          constructor
          · rintro (hL | ⟨j, hj, hjs, hjo⟩)
            · exact Or.inl hL
            · exact Or.inr ⟨j + 1, by omega, by simpa using hjs, by simpa using hjo⟩
          · rintro (hL | ⟨j, hj, hjs, hjo⟩)
            · exact Or.inl hL
            · cases j with
              | zero =>
                exfalso
                simp only [List.getD_cons_zero] at hjs
                exact absurd hjs (by simp)
              | succ j =>
                exact Or.inr ⟨j, by omega, by simpa using hjs, by simpa using hjo⟩
    · rename_i hov
      have hnov : ∀ t ∈ levels, ¬ overlapsI s t := by
        intro t ht hoI
        exact hov (List.any_eq_true.mpr ⟨t, ht, (overlapB_iff s t).mpr hoI⟩)
      obtain ⟨hlen, hy, hidx⟩ := ih (levels ++ [{ s with y := 260 }]) hrest
      refine ⟨by simpa using hlen, ?_, ?_⟩
      · intro b hb
        rcases List.mem_cons.mp hb with rfl | hb2
        · intro _
          rfl
        · exact hy b hb2
      · intro i hi
        cases i with
        | zero =>
          refine ⟨rfl, rfl, ?_⟩
          simp only [List.getD_cons_zero]
          constructor
          · intro hcontra
            have hcs : s.skip = true := hcontra
            rw [hs0] at hcs
            exact Bool.noConfusion hcs
          · rintro (hL | ⟨j, hj, -, -⟩)
            · obtain ⟨t, ht, hoI⟩ := hL
              exact absurd hoI (hnov t ht)
            · exact absurd hj (Nat.not_lt_zero j)
        | succ i =>
          have hi' : i < rest.length := by simpa using hi
          obtain ⟨h2, h3, h5⟩ := hidx i hi'
          simp only [List.getD_cons_succ]
          refine ⟨h2, h3, ?_⟩
          rw [h5]
          constructor
          · rintro (hL | ⟨j, hj, hjs, hjo⟩)
            · obtain ⟨t, ht, hoI⟩ := hL
              rcases List.mem_append.mp ht with htl | hts
              · exact Or.inl ⟨t, htl, hoI⟩
              · rw [List.mem_singleton] at hts
                subst hts
                refine Or.inr ⟨0, Nat.succ_pos i, ?_, ?_⟩
                · simpa using hs0
                · simpa using hoI
            · exact Or.inr ⟨j + 1, by omega, by simpa using hjs, by simpa using hjo⟩
          · rintro (hL | ⟨j, hj, hjs, hjo⟩)
            · obtain ⟨t, ht, hoI⟩ := hL
              exact Or.inl ⟨t, List.mem_append_left _ ht, hoI⟩
            · cases j with
              | zero =>
                refine Or.inl ⟨{ s with y := 260 },
                  List.mem_append_right _ (List.mem_singleton_self _), ?_⟩
                simpa using hjo
              | succ j =>
                exact Or.inr ⟨j, by omega, by simpa using hjs, by simpa using hjo⟩

/-- C10 (confirmed): the fixed-cycle level assigner never uses a second
level — every state it leaves non-skipped has `y = 260` — and, on inputs
whose states are all initially non-skipped (as `generate_states`
produces), it sets `skip = true` on a state exactly when that state's
interval overlaps the interval of some earlier non-skipped state in the
input order.  Timing fields are never modified. -/
theorem c10_fixed_assigner_characterisation :
    ∀ l : List CaptionState, (∀ u ∈ l, u.skip = false) →
      (Fixed.assign_caption_levels l).length = l.length ∧
      (∀ b ∈ Fixed.assign_caption_levels l, b.skip = false → b.y = 260) ∧
      (∀ i, i < l.length →
        ((Fixed.assign_caption_levels l).getD i default).on = (l.getD i default).on ∧
        ((Fixed.assign_caption_levels l).getD i default).off = (l.getD i default).off ∧
        (((Fixed.assign_caption_levels l).getD i default).skip = true ↔
          ∃ j, j < i ∧ ((Fixed.assign_caption_levels l).getD j default).skip = false ∧
            overlapsI (l.getD i default) (l.getD j default))) := by
  intro l hl
  unfold Fixed.assign_caption_levels
  obtain ⟨h1, h2, h3⟩ := Fixed.assignGo_spec l [] hl
  refine ⟨h1, h2, ?_⟩
  intro i hi
  obtain ⟨g2, g3, g5⟩ := h3 i hi
  refine ⟨g2, g3, ?_⟩
  rw [g5]
  constructor
  · rintro (⟨t, ht, -⟩ | h)
    · exact absurd ht (List.not_mem_nil t)
    · exact h
  · exact Or.inr

/-- Witness for C10: the characterisation applied to the demo states. -/
theorem c10_fixed_assigner_characterisation_witness :
    (∀ u ∈ demoStates, u.skip = false) ∧
    (Fixed.assign_caption_levels demoStates).length = demoStates.length ∧
    (∀ b ∈ Fixed.assign_caption_levels demoStates, b.skip = false → b.y = 260) ∧
    (∀ i, i < demoStates.length →
      ((Fixed.assign_caption_levels demoStates).getD i default).on
          = (demoStates.getD i default).on ∧
      ((Fixed.assign_caption_levels demoStates).getD i default).off
          = (demoStates.getD i default).off ∧
      (((Fixed.assign_caption_levels demoStates).getD i default).skip = true ↔
        ∃ j, j < i ∧
          ((Fixed.assign_caption_levels demoStates).getD j default).skip = false ∧
          overlapsI (demoStates.getD i default) (demoStates.getD j default))) :=
  ⟨by decide, c10_fixed_assigner_characterisation demoStates (by decide)⟩

/-! ## Claim C6: `off > on` for every generated state -/

/-- C6 (confirmed): every state emitted by `generate_states` satisfies
`off > on`, in both strategies, for all segment lists and clip boundaries.
The fixed-cycle builder guards every append with `if off > on`; the
sliding-window builder floors `off` at `on + min_visibility` after all
clamping, so a positive visibility floor (the configuration contract
requires `min_visibility_ms > 0`) yields `off > on`. -/
theorem c6_off_gt_on :
    (∀ (cfg : Fixed.CaptionGenerator) (segs : List SubtitleSegment) (c0 c1 : ℚ),
      ∀ s ∈ cfg.generate_states segs c0 c1, s.on < s.off) ∧
    (∀ (cfg : Sliding.CaptionGenerator) (segs : List SubtitleSegment) (c0 c1 : ℚ),
      0 < cfg.min_visibility_sec →
      ∀ s ∈ cfg.generate_states segs c0 c1, s.on < s.off) := by
  constructor
  · intro cfg segs c0 c1 s h
    unfold Fixed.CaptionGenerator.generate_states at h
    obtain ⟨seg, -, hmem⟩ := List.mem_flatMap.mp (mem_sortStates h)
    obtain ⟨-, j, wc, -, -, -, -, -, -, -, hoffon, -⟩ :=
      Fixed.mem_segmentStates_elim cfg seg c0 c1 s hmem
    exact hoffon
  · intro cfg segs c0 c1 hmv s h
    unfold Sliding.CaptionGenerator.generate_states at h
    obtain ⟨seg, -, hmem⟩ := List.mem_flatMap.mp (mem_sortStates h)
    have := (Sliding.mem_segmentStates_min_visibility cfg seg c0 c1 s hmem).1
    linarith

/-- Witness for C6: both conjuncts applied to the one-second one-word
segment with the default configurations. -/
theorem c6_off_gt_on_witness :
    ((⟨"hi".toList, 0, 1, 0, 260, false⟩ : CaptionState) ∈
        fixedDefaultCfg.generate_states [oneWordSeg] 0 1000 ∧
      (0 : ℚ) < 1) ∧
    ((0 : ℚ) < slidingDefaultCfg.min_visibility_sec ∧
      (⟨"hi".toList, 0, 1, 0, 260, false⟩ : CaptionState) ∈
        slidingDefaultCfg.generate_states [oneWordSeg] 0 1000 ∧
      (0 : ℚ) < 1) := by
  refine ⟨⟨by decide, ?_⟩, by decide, by decide, ?_⟩
  · exact c6_off_gt_on.1 fixedDefaultCfg [oneWordSeg] 0 1000
      ⟨"hi".toList, 0, 1, 0, 260, false⟩ (by decide)
  · exact c6_off_gt_on.2 slidingDefaultCfg [oneWordSeg] 0 1000 (by decide)
      ⟨"hi".toList, 0, 1, 0, 260, false⟩ (by decide)

/-! ## Claim C1: minimum visibility of non-skipped states -/

/-- C1 (corrected), counterexample: on a 50 ms one-word segment the
fixed-cycle builder produces a single non-skipped state with
`off - on = 0.05 < 0.2 = min_visibility`: the minimum-visibility bump is
applied before clamping to the segment end, so clamping can undo it.
The spec's universal minimum-visibility property is therefore false as
stated. -/
theorem c1_min_visibility_counterexample :
    fixedDefaultCfg.generate_states [shortSeg] 0 1000
        = [⟨"hi".toList, 0, 1 / 20, 0, 260, false⟩] ∧
    decide (∀ s ∈ fixedDefaultCfg.generate_states [shortSeg] 0 1000,
        s.skip = false → fixedDefaultCfg.min_visibility_sec ≤ s.off - s.on) = false :=
  ⟨by decide, by decide⟩

/-- C1 (corrected), amended: the sliding-window builder always guarantees
`off - on ≥ min_visibility` (its floor is applied after clip clamping);
the fixed-cycle builder guarantees it except when `off` was truncated to
the clamped end of the source segment, in which case
`off = min(clip_end - clip_start, segment.end - clip_start)`.  All states
leave the builders non-skipped. -/
theorem c1_min_visibility_amended :
    (∀ (cfg : Sliding.CaptionGenerator) (segs : List SubtitleSegment) (c0 c1 : ℚ),
      ∀ s ∈ cfg.generate_states segs c0 c1,
        cfg.min_visibility_sec ≤ s.off - s.on ∧ s.skip = false) ∧
    (∀ (cfg : Fixed.CaptionGenerator) (segs : List SubtitleSegment) (c0 c1 : ℚ),
      ∀ s ∈ cfg.generate_states segs c0 c1,
        s.skip = false ∧
        ∃ seg ∈ segs, s.seg_idx = seg.index ∧
          (cfg.min_visibility_sec ≤ s.off - s.on ∨
            s.off = min (c1 - c0) (seg.endTime - c0))) := by
  constructor
  · intro cfg segs c0 c1 s h
    unfold Sliding.CaptionGenerator.generate_states at h
    obtain ⟨seg, -, hmem⟩ := List.mem_flatMap.mp (mem_sortStates h)
    obtain ⟨h1, h2⟩ := Sliding.mem_segmentStates_min_visibility cfg seg c0 c1 s hmem
    exact ⟨by linarith, h2⟩
  · intro cfg segs c0 c1 s h
    unfold Fixed.CaptionGenerator.generate_states at h
    obtain ⟨seg, hseg, hmem⟩ := List.mem_flatMap.mp (mem_sortStates h)
    obtain ⟨-, j, wc, -, -, -, -, hsegidx, hskip, -, -, hdisj⟩ :=
      Fixed.mem_segmentStates_elim cfg seg c0 c1 s hmem
    exact ⟨hskip, seg, hseg, hsegidx, hdisj⟩

/-- Witness for C1's amended statement: both conjuncts applied to the
one-second one-word segment with the default configurations. -/
theorem c1_min_visibility_amended_witness :
    ((⟨"hi".toList, 0, 1, 0, 260, false⟩ : CaptionState) ∈
        slidingDefaultCfg.generate_states [oneWordSeg] 0 1000 ∧
      (slidingDefaultCfg.min_visibility_sec ≤ (1 : ℚ) - 0 ∧
        (false : Bool) = false)) ∧
    ((⟨"hi".toList, 0, 1, 0, 260, false⟩ : CaptionState) ∈
        fixedDefaultCfg.generate_states [oneWordSeg] 0 1000 ∧
      ((false : Bool) = false ∧
        ∃ seg ∈ [oneWordSeg], (0 : ℕ) = seg.index ∧
          (fixedDefaultCfg.min_visibility_sec ≤ (1 : ℚ) - 0 ∨
            (1 : ℚ) = min (1000 - 0) (seg.endTime - 0)))) := by
  refine ⟨⟨by decide, ?_⟩, by decide, ?_⟩
  · exact c1_min_visibility_amended.1 slidingDefaultCfg [oneWordSeg] 0 1000
      ⟨"hi".toList, 0, 1, 0, 260, false⟩ (by decide)
  · exact c1_min_visibility_amended.2 fixedDefaultCfg [oneWordSeg] 0 1000
      ⟨"hi".toList, 0, 1, 0, 260, false⟩ (by decide)

/-! ## Claim C2: the spec scenario for the fixed-cycle builder -/

/-- C2 (code_bug): on the spec's scenario segment the fixed-cycle builder
emits six states whose group sizes are `1, 2, 1, 2, 1, 2` — the `1, 2, 3`
cycle promised by the spec and by the code's own docstring never occurs,
because the cycle position is the starting word index, which is never
`≡ 2 (mod 3)` at a group boundary.  The remaining scenario expectations
(all nine words consumed, `off - on ≥ 0.120`, ascending `on`, one level,
no skips) do hold and are recorded here as well. -/
theorem c2_scenario_group_sizes :
    (c2cfg.generate_states [c2seg] 0 1000).map (fun s => (tokenize s.text).length)
        = [1, 2, 1, 2, 1, 2] ∧
    ((c2cfg.generate_states [c2seg] 0 1000).map (fun s => (tokenize s.text).length)).sum
        = 9 ∧
    (c2cfg.generate_states [c2seg] 0 1000).all (fun s =>
      decide (c2cfg.min_visibility_sec ≤ s.off - s.on) && decide (s.y = 260) &&
        decide (s.skip = false)) = true ∧
    (c2cfg.generate_states [c2seg] 0 1000).Pairwise (fun a b => a.on ≤ b.on) := by
  refine ⟨by decide, by decide, by decide, by decide⟩
